import Mathlib

/-!
# Verification of the mutare job orchestration and reconciliation engine

This file gives a shallow embedding of the orchestrator implemented in
`scripts/utils/exec.py` and `scripts/utils/config.py` (with the sibling
variants in `scripts/utils/runner.py`, `scripts/utils/manager.py` and
`scripts/mutare_tools/`), and proves or refutes the specified properties
of content-addressed job identity, idempotent reconciliation, cancellation,
locking and outcome aggregation.

The external simulation engine (the Rust binary `target/release/mutare`,
which is part of the repository but whose sources are not available here)
is modelled from the spec's engine invocation contract, as marked on the
individual definitions.
-/

namespace Mutare

/-! ## On-disk state of one job directory

A job directory contains run directories `run-0000 .. run-(N-1)`; each run
directory contains a contiguous sequence of shards `output-0000 ..
output-(M-1)` and possibly an `analysis.msgpack` artifact.  The reconciler
only ever observes the *count* of `run-*` directories, the *count* of
`output-*` files of a run, and the *existence* of `analysis.msgpack`
(shard indices are contiguous from 0, per the layout invariant), so a run
directory is modelled by that data. -/

structure RunDir where
  shards : Nat
  hasAnalysis : Bool
deriving DecidableEq, Repr

/-- A fresh run directory: no shards, no analysis artifact. -/
def newRun : RunDir := ⟨0, false⟩

/-- The on-disk state of a job (`sim_dir`): the list of its run
directories, position `i` modelling `run-{i:04}`. -/
structure SimState where
  runs : List RunDir
deriving DecidableEq, Repr

/-- `RunOptions` from `scripts/utils/exec.py` (lines 55-58). -/
structure RunOptions where
  nRuns : Nat
  nFiles : Nat
deriving DecidableEq, Repr

/-- One engine invocation, identified by the verb and arguments passed to
`run_bin`.  For `resume`, `runIdx` is the `--run-idx` argument; `fileIdx`
records the shard index the invocation produces (the current shard count,
which is also what `run_sim` logs as `resuming run {run_idx} file {n_files}`). -/
inductive Inv where
  | create
  | resume (runIdx : Nat) (fileIdx : Nat)
  | analyze
  | clean
deriving DecidableEq, Repr

/-! ## Engine effects

Modelled from the spec: the engine binary is repository code not present
under `src/`, so its verbs are modelled from the spec's engine invocation
contract (spec section 6). -/

/-- Modelled from the spec: `create` "allocates the next run directory and
initial checkpoint" — a fresh run directory with no shards and no analysis
artifact is appended. -/
def applyCreate (s : SimState) : SimState := ⟨s.runs ++ [newRun]⟩

/-- Increment the shard count of the run at position `i` (no-op when out
of range). -/
def bumpShards : List RunDir → Nat → List RunDir
  | [], _ => []
  | r :: rs, 0 => ⟨r.shards + 1, r.hasAnalysis⟩ :: rs
  | r :: rs, n + 1 => r :: bumpShards rs n

/-- Modelled from the spec: `resume` "advances by one shard's worth of
work, appends `output-NNNN`" for the given run index. -/
def applyResume (s : SimState) (i : Nat) : SimState := ⟨bumpShards s.runs i⟩

/-- Modelled from the spec: `analyze` (invoked by `run_sim` once, without
a run index, logged as "analyzing all runs") writes the `analysis.msgpack`
artifact of every existing run. -/
def applyAnalyze (s : SimState) : SimState :=
  ⟨s.runs.map fun r => ⟨r.shards, true⟩⟩

/-- Modelled from the spec: `clean` "deletes all run data under the job
directory". -/
def applyClean (_ : SimState) : SimState := ⟨[]⟩

/-- The state transition of a single engine invocation. -/
def applyInv (s : SimState) : Inv → SimState
  | .create => applyCreate s
  | .resume i _ => applyResume s i
  | .analyze => applyAnalyze s
  | .clean => applyClean s

/-! ## Engine Invoker: `run_bin` (`scripts/utils/exec.py`, lines 46-52)

`run_bin` first consults the process-wide `stop_requested` flag: if set it
raises `StopRequested` without spawning; otherwise it spawns the engine
process with `subprocess.run`, which blocks until the invocation has run
to completion.  The embedding returns `Except Unit`: `.error ()` is the
raised `StopRequested`, and the `.ok` branch carries the fully applied
engine effect together with the singleton list of processes spawned. -/

def runBin (stopRequested : Bool) (s : SimState) (inv : Inv) :
    Except Unit (SimState × List Inv) :=
  if stopRequested then Except.error ()
  else Except.ok (applyInv s inv, [inv])

/-! ## Reconciler: `run_sim` (`scripts/utils/exec.py`, lines 61-85)

`run_sim` is embedded as a pure function from the on-disk state to the
final state together with the trace of engine invocations it issues, for
an execution in which no cancellation fires and every engine invocation
succeeds (each invocation is one `run_bin` call with
`stop_requested = false`).

The `while n_runs < run_options.n_runs` loop executes exactly
`run_options.n_runs - n_runs` times (truncated subtraction), incrementing
its local counter; likewise for the per-run `while n_files < ...` loop. -/

/-- The shard count `len(list(run_dir.glob("output-*")))` of run `i`
(0 when the run directory does not exist). -/
def shardsAt (s : SimState) (i : Nat) : Nat := (s.runs.getD i newRun).shards

/-- The existence check `(run_dir / "analysis.msgpack").exists()`. -/
def hasAnalysisAt (s : SimState) (i : Nat) : Bool :=
  (s.runs.getD i newRun).hasAnalysis

/-- The create loop: issue `k` `create` invocations. -/
def createRuns : SimState → Nat → SimState × List Inv
  | s, 0 => (s, [])
  | s, k + 1 =>
    let p := createRuns (applyCreate s) k
    (p.1, .create :: p.2)

/-- The resume loop for run `i`: issue `k` `resume` invocations, each at
the current shard count. -/
def resumeRun : SimState → Nat → Nat → SimState × List Inv
  | s, _, 0 => (s, [])
  | s, i, k + 1 =>
    let p := resumeRun (applyResume s i) i k
    (p.1, .resume i (shardsAt s i) :: p.2)

/-- One iteration of the `for run_idx in range(run_options.n_runs)` loop:
check for a missing analysis artifact, then resume until the shard quota
is met.  Returns the new state, the trace, and the contribution to the
`analyze` flag (`True` when the artifact was missing or any resume was
performed). -/
def reconcileRun (s : SimState) (nFiles : Nat) (i : Nat) :
    SimState × List Inv × Bool :=
  let needsAnalysis := !hasAnalysisAt s i
  let k := nFiles - shardsAt s i
  let p := resumeRun s i k
  (p.1, p.2, needsAnalysis || decide (0 < k))

/-- The whole per-run loop over a list of run indices, accumulating the
`analyze` flag. -/
def reconcileRuns : SimState → Nat → List Nat → SimState × List Inv × Bool
  | s, _, [] => (s, [], false)
  | s, nFiles, i :: is =>
    let p := reconcileRun s nFiles i
    let q := reconcileRuns p.1 nFiles is
    (q.1, p.2.1 ++ q.2.1, p.2.2 || q.2.2)

/-- `run_sim` from `scripts/utils/exec.py`: create missing runs, resume
missing shards of runs `0 .. n_runs-1`, and invoke `analyze` once if any
work was done or any analysis artifact was missing.  (This variant has no
`clean` option: it never cleans.) -/
def runSim (s : SimState) (opts : RunOptions) : SimState × List Inv :=
  let c := createRuns s (opts.nRuns - s.runs.length)
  let r := reconcileRuns c.1 opts.nFiles (List.range opts.nRuns)
  if r.2.2 then (applyAnalyze r.1, c.2 ++ r.2.1 ++ [.analyze])
  else (r.1, c.2 ++ r.2.1)

/-! ## Job Runner and Pool Dispatcher
(`scripts/utils/exec.py`, lines 140-183) -/

/-- `JobResult` from `scripts/utils/exec.py` (lines 140-143). -/
inductive JobResult where
  | finished
  | stopped
  | failed
deriving DecidableEq, Repr

/-- `execute_sim_job` (`scripts/utils/exec.py`, lines 146-164) for an
execution with no cancellation and no engine failure.  `lockHeld` states
whether another process already holds the exclusive lock on
`sim_dir/.lock`: in that case `fcntl.flock(..., LOCK_EX | LOCK_NB)` raises
immediately (it does not wait), the generic `except Exception` handler
catches the error, and the job returns `JobResult.FAILED` without having
run any reconciliation step. -/
def executeSimJob (lockHeld : Bool) (s : SimState) (opts : RunOptions) :
    JobResult × SimState × List Inv :=
  if lockHeld then (.failed, s, [])
  else (.finished, (runSim s opts).1, (runSim s opts).2)

/-- The exit decision of `execute_sim_jobs` (`scripts/utils/exec.py`,
lines 179-183) after the pool has collected every job's result:
`raise RuntimeError("some job failed")` when any result is `FAILED`, else
`raise RuntimeError("some job was stopped")` when any is `STOPPED`, else
return normally.  An uncaught exception is `.error` with its message. -/
def executeDecision (rs : List JobResult) : Except String Unit :=
  if 0 < rs.count .failed then Except.error "some job failed"
  else if 0 < rs.count .stopped then Except.error "some job was stopped"
  else Except.ok ()

/-- The process exit code a Python interpreter produces for the decision:
0 on a normal return, 1 for an uncaught `RuntimeError` (whatever its
message). -/
def pythonExitCode : Except String Unit → Nat
  | .ok _ => 0
  | .error _ => 1

/-! ## Specification-side trace helpers

These closed forms of `run_sim`'s behaviour are proved equal to the
embedding below and make the claims easy to state and prove. -/

/-- The run list padded with the fresh runs the create loop appends. -/
def padded (s : SimState) (n : Nat) : SimState :=
  ⟨s.runs ++ List.replicate (n - s.runs.length) newRun⟩

/-- Closed form of the resume invocations issued for a list of run
indices: for run `i`, one `resume` per missing shard, starting at the
current shard count. -/
def resumeTrace (s : SimState) (nFiles : Nat) : List Nat → List Inv
  | [] => []
  | i :: is =>
    (List.range (nFiles - shardsAt s i)).map
        (fun j => Inv.resume i (shardsAt s i + j))
      ++ resumeTrace s nFiles is

/-- Closed form of the `analyze` flag accumulated over a list of run
indices: set when some run misses its analysis artifact or needs at least
one resume. -/
def analyzeFlag (s : SimState) (nFiles : Nat) : List Nat → Bool
  | [] => false
  | i :: is =>
    (!hasAnalysisAt s i || decide (0 < nFiles - shardsAt s i))
      || analyzeFlag s nFiles is

/-- Predicate selecting the `resume` invocations of run `i` in a trace. -/
def isResumeOf (i : Nat) : Inv → Bool
  | .resume r _ => r == i
  | _ => false

/-! ## Configuration values and content-addressed job identity
(`scripts/utils/config.py`)

A configuration is an arbitrarily nested mapping (a Python dict of dicts,
lists and scalars).  `Json.atom` holds the canonical serialized token of a
scalar leaf (number, string or boolean literal); `Json.obj` is a dict as
an association list in insertion order, `Json.arr` a list. -/

inductive Json where
  | atom (s : String)
  | arr (elems : List Json)
  | obj (fields : List (String × Json))

/-- First-match association-list lookup (Python `d[k]` / `k in d`;
a dict has unique keys, so first match is the match). -/
def lookupJ (k : String) : List (String × Json) → Option Json
  | [] => none
  | (k', v) :: ps => if k = k' then some v else lookupJ k ps

/-- The keys of an object, in insertion order. -/
def keysOf (kvs : List (String × Json)) : List String := kvs.map Prod.fst

/-- Key uniqueness of an object (always true of a Python dict). -/
def nodupKeys : List (String × Json) → Bool
  | [] => true
  | (k, _) :: ps => !((ps.map Prod.fst).contains k) && nodupKeys ps

/-! Well-formedness: every object in the value has unique keys, as is the
case for every value built from Python dicts. -/

mutual

/-- Well-formedness of a value: unique keys in every object. -/
def wfJ : Json → Bool
  | .atom _ => true
  | .arr xs => wfL xs
  | .obj kvs => nodupKeys kvs && wfP kvs

def wfL : List Json → Bool
  | [] => true
  | x :: xs => wfJ x && wfL xs

def wfP : List (String × Json) → Bool
  | [] => true
  | (_, v) :: ps => wfJ v && wfP ps

end

/-! Python `==` on configuration values (`load_config(sim_dir) != config`
in `hash_sim_dir` compares dicts structurally): atoms by equality, lists
pointwise, dicts by equal size and per-key lookup — key order is
irrelevant. -/

mutual

/-- Python `==` on configuration values. -/
def jeq : Json → Json → Bool
  | .atom a, .atom b => a == b
  | .arr xs, .arr ys => jeqL xs ys
  | .obj xs, .obj ys => xs.length == ys.length && jeqP xs ys
  | _, _ => false

def jeqL : List Json → List Json → Bool
  | [], [] => true
  | _ :: _, [] => false
  | [], _ :: _ => false
  | x :: xs, y :: ys => jeq x y && jeqL xs ys

def jeqP : List (String × Json) → List (String × Json) → Bool
  | [], _ => true
  | (k, v) :: ps, ys =>
    (match lookupJ k ys with
     | some w => jeq v w
     | none => false) && jeqP ps ys

end

/-- Code-point lexicographic comparison of key strings (as character
lists): the order in which Python's `sorted` compares `str` values, and
hence the order `json.dumps(config, sort_keys=True)` emits keys. -/
def lexLe : List Char → List Char → Bool
  | [], _ => true
  | _ :: _, [] => false
  | a :: as, b :: bs =>
    if a < b then true
    else if b < a then false
    else lexLe as bs

/-- Key order used by `json.dumps(config, sort_keys=True)`: object fields
are emitted in ascending key order. -/
def keyLe (p q : String × Json) : Prop := lexLe p.1.data q.1.data = true

instance : DecidableRel keyLe := fun p q =>
  inferInstanceAs (Decidable (lexLe p.1.data q.1.data = true))

/-- Strict key order: ascending and with distinct keys. -/
def keyLt (p q : String × Json) : Prop := keyLe p q ∧ p.1 ≠ q.1

/-! Canonicalization performed by `json.dumps(config, sort_keys=True)`:
recursively sort every object's fields by key. -/

mutual

/-- Recursively sort every object's fields by key. -/
def canon : Json → Json
  | .atom s => .atom s
  | .arr xs => .arr (canonL xs)
  | .obj kvs => .obj (List.insertionSort keyLe (canonP kvs))

def canonL : List Json → List Json
  | [] => []
  | x :: xs => canon x :: canonL xs

def canonP : List (String × Json) → List (String × Json)
  | [] => []
  | (k, v) :: ps => (k, canon v) :: canonP ps

end

/-- A JSON object key in its serialized form. -/
def quoteKey (k : String) : String := "\"" ++ k ++ "\""

/-! Plain serialization of an (already canonicalized) value, with
the default separators of `json.dumps`. -/

mutual

/-- Serialize a value, fields in the order given. -/
def ser : Json → String
  | .atom s => s
  | .arr xs => "[" ++ serL xs ++ "]"
  | .obj kvs => "\x7b" ++ serP kvs ++ "\x7d"

def serL : List Json → String
  | [] => ""
  | [x] => ser x
  | x :: y :: xs => ser x ++ ", " ++ serL (y :: xs)

def serP : List (String × Json) → String
  | [] => ""
  | [(k, v)] => quoteKey k ++ ": " ++ ser v
  | (k, v) :: q :: ps => quoteKey k ++ ": " ++ ser v ++ ", " ++ serP (q :: ps)

end

/-- `json.dumps(config, sort_keys=True)`: the canonical serialization. -/
def dumps (j : Json) : String := ser (canon j)

/-! ## `hash_sim_dir` (`scripts/utils/config.py`, lines 82-96)

The filesystem is modelled by the map from directory paths to the
configuration persisted in their `config.toml` (absent entry = the file
does not exist).  The hash is an arbitrary function of the canonical
serialization (`hashlib.sha256(config_str.encode()).hexdigest()`); every
theorem below holds for every such function. -/

structure FsState where
  persisted : List (String × Json)

/-- `config_file_path(sim_dir).exists()` / `load_config(sim_dir)`. -/
def lookupFs (fs : FsState) (dir : String) : Option Json :=
  lookupJ dir fs.persisted

/-- `base_dir / config_hash`: the content-addressed job directory. -/
def simDirPath (hash : String → String) (baseDir : String) (config : Json) :
    String :=
  baseDir ++ "/" ++ hash (dumps config)

/-- `hash_sim_dir`: derive the directory from the canonical serialization;
if a configuration is already persisted there, compare it with the input
and raise `ValueError` on mismatch (leaving the filesystem untouched);
otherwise create the directory and persist the configuration.  Returns
the resulting filesystem and either the directory or the raised error. -/
def hashSimDir (hash : String → String) (baseDir : String) (config : Json)
    (fs : FsState) : FsState × Except String String :=
  let simDir := simDirPath hash baseDir config
  match lookupFs fs simDir with
  | some persisted =>
    if jeq persisted config then (fs, Except.ok simDir)
    else (fs, Except.error ("config mismatch with " ++ simDir ++ "/config.toml"))
  | none => (⟨(simDir, config) :: fs.persisted⟩, Except.ok simDir)

/-! # Theorems

## Pointwise lemmas about the engine effects -/

theorem getD_bumpShards_hasAnalysis (rs : List RunDir) (i j : Nat) :
    ((bumpShards rs i).getD j newRun).hasAnalysis
      = (rs.getD j newRun).hasAnalysis := by
  induction rs generalizing i j with
  | nil => simp [bumpShards]
  | cons r rs ih =>
    cases i with
    | zero => cases j <;> simp [bumpShards]
    | succ n =>
      cases j with
      | zero => simp [bumpShards]
      | succ m =>
        simp only [bumpShards, List.getD_cons_succ]
        exact ih n m

theorem getD_bumpShards_ne (rs : List RunDir) (i j : Nat) (h : j ≠ i) :
    (bumpShards rs i).getD j newRun = rs.getD j newRun := by
  induction rs generalizing i j with
  | nil => simp [bumpShards]
  | cons r rs ih =>
    cases i with
    | zero =>
      cases j with
      | zero => exact absurd rfl h
      | succ m => simp [bumpShards]
    | succ n =>
      cases j with
      | zero => simp [bumpShards]
      | succ m =>
        simp only [bumpShards, List.getD_cons_succ]
        exact ih n m (by omega)

theorem getD_bumpShards_self (rs : List RunDir) (i : Nat) (h : i < rs.length) :
    ((bumpShards rs i).getD i newRun).shards = (rs.getD i newRun).shards + 1 := by
  induction rs generalizing i with
  | nil => simp at h
  | cons r rs ih =>
    cases i with
    | zero => simp [bumpShards]
    | succ n =>
      simp only [bumpShards, List.getD_cons_succ]
      exact ih n (by simpa using h)

theorem bumpShards_length (rs : List RunDir) (i : Nat) :
    (bumpShards rs i).length = rs.length := by
  induction rs generalizing i with
  | nil => simp [bumpShards]
  | cons r rs ih => cases i <;> simp [bumpShards, ih]

theorem applyResume_length (s : SimState) (i : Nat) :
    (applyResume s i).runs.length = s.runs.length :=
  bumpShards_length s.runs i

theorem shardsAt_applyResume_self (s : SimState) (i : Nat)
    (h : i < s.runs.length) :
    shardsAt (applyResume s i) i = shardsAt s i + 1 :=
  getD_bumpShards_self s.runs i h

theorem shardsAt_applyResume_ne (s : SimState) (i j : Nat) (h : j ≠ i) :
    shardsAt (applyResume s i) j = shardsAt s j := by
  unfold shardsAt applyResume
  rw [getD_bumpShards_ne s.runs i j h]

theorem hasAnalysisAt_applyResume (s : SimState) (i j : Nat) :
    hasAnalysisAt (applyResume s i) j = hasAnalysisAt s j :=
  getD_bumpShards_hasAnalysis s.runs i j

theorem applyAnalyze_length (s : SimState) :
    (applyAnalyze s).runs.length = s.runs.length := by
  simp [applyAnalyze]

theorem getD_map_setAnalysis (rs : List RunDir) (i : Nat) :
    ((rs.map fun r => (⟨r.shards, true⟩ : RunDir)).getD i newRun).shards
      = (rs.getD i newRun).shards := by
  induction rs generalizing i with
  | nil => simp
  | cons r rs ih =>
    cases i with
    | zero => simp
    | succ n =>
      simp only [List.map_cons, List.getD_cons_succ]
      exact ih n

theorem shardsAt_applyAnalyze (s : SimState) (i : Nat) :
    shardsAt (applyAnalyze s) i = shardsAt s i :=
  getD_map_setAnalysis s.runs i

theorem getD_replicate_newRun (k i : Nat) :
    (List.replicate k newRun).getD i newRun = newRun := by
  induction k generalizing i with
  | zero => simp
  | succ k ih => cases i <;> simp [List.replicate_succ, ih]

theorem getD_append_replicate (rs : List RunDir) (k i : Nat) :
    (rs ++ List.replicate k newRun).getD i newRun = rs.getD i newRun := by
  induction rs generalizing i with
  | nil => simp [getD_replicate_newRun k i]
  | cons r rs ih =>
    cases i with
    | zero => simp
    | succ m =>
      simp only [List.cons_append, List.getD_cons_succ]
      exact ih m

theorem padded_getD (s : SimState) (n i : Nat) :
    (padded s n).runs.getD i newRun = s.runs.getD i newRun :=
  getD_append_replicate s.runs (n - s.runs.length) i

theorem padded_shardsAt (s : SimState) (n i : Nat) :
    shardsAt (padded s n) i = shardsAt s i := by
  unfold shardsAt
  rw [padded_getD]

theorem padded_hasAnalysisAt (s : SimState) (n i : Nat) :
    hasAnalysisAt (padded s n) i = hasAnalysisAt s i := by
  unfold hasAnalysisAt
  rw [padded_getD]

theorem padded_length (s : SimState) (n : Nat) :
    (padded s n).runs.length = max s.runs.length n := by
  simp [padded]
  omega

/-! ## The create and resume loops -/

theorem createRuns_eq (k : Nat) : ∀ s : SimState,
    createRuns s k
      = (⟨s.runs ++ List.replicate k newRun⟩, List.replicate k Inv.create) := by
  induction k with
  | zero => intro s; simp [createRuns]
  | succ k ih =>
    intro s
    simp [createRuns, ih, applyCreate, List.replicate_succ]

theorem resumeRun_length (i k : Nat) : ∀ s : SimState,
    (resumeRun s i k).1.runs.length = s.runs.length := by
  induction k with
  | zero => intro s; simp [resumeRun]
  | succ k ih =>
    intro s
    simp [resumeRun, ih, applyResume_length]

theorem shardsAt_resumeRun_self (i k : Nat) : ∀ s : SimState,
    i < s.runs.length → shardsAt (resumeRun s i k).1 i = shardsAt s i + k := by
  induction k with
  | zero => intro s _; simp [resumeRun]
  | succ k ih =>
    intro s h
    have h' : i < (applyResume s i).runs.length := by
      rwa [applyResume_length]
    simp only [resumeRun]
    rw [ih (applyResume s i) h', shardsAt_applyResume_self s i h]
    omega

theorem shardsAt_resumeRun_ne (i j k : Nat) (hne : j ≠ i) : ∀ s : SimState,
    shardsAt (resumeRun s i k).1 j = shardsAt s j := by
  induction k with
  | zero => intro s; simp [resumeRun]
  | succ k ih =>
    intro s
    simp only [resumeRun]
    rw [ih (applyResume s i), shardsAt_applyResume_ne s i j hne]

theorem hasAnalysisAt_resumeRun (i j k : Nat) : ∀ s : SimState,
    hasAnalysisAt (resumeRun s i k).1 j = hasAnalysisAt s j := by
  induction k with
  | zero => intro s; simp [resumeRun]
  | succ k ih =>
    intro s
    simp only [resumeRun]
    rw [ih (applyResume s i), hasAnalysisAt_applyResume s i j]

theorem resumeRun_trace (i k : Nat) : ∀ s : SimState, i < s.runs.length →
    (resumeRun s i k).2
      = (List.range k).map fun j => Inv.resume i (shardsAt s i + j) := by
  induction k with
  | zero => intro s _; simp [resumeRun]
  | succ k ih =>
    intro s h
    have h' : i < (applyResume s i).runs.length := by
      rwa [applyResume_length]
    have htail : (resumeRun (applyResume s i) i k).2
        = List.map ((fun j => Inv.resume i (shardsAt s i + j)) ∘ Nat.succ)
            (List.range k) := by
      rw [ih (applyResume s i) h', shardsAt_applyResume_self s i h]
      refine List.map_congr_left fun j _ => ?_
      simp only [Function.comp]
      exact congrArg (Inv.resume i) (by omega)
    simp only [resumeRun, List.range_succ_eq_map, List.map_cons, List.map_map,
      htail]
    simp

/-! ## The per-run reconciliation loop -/

theorem reconcileRuns_length (nf : Nat) (is : List Nat) : ∀ s : SimState,
    (reconcileRuns s nf is).1.runs.length = s.runs.length := by
  induction is with
  | nil => intro s; simp [reconcileRuns]
  | cons i is ih =>
    intro s
    simp only [reconcileRuns, reconcileRun]
    rw [ih, resumeRun_length]

theorem hasAnalysisAt_reconcileRuns (nf j : Nat) (is : List Nat) :
    ∀ s : SimState,
    hasAnalysisAt (reconcileRuns s nf is).1 j = hasAnalysisAt s j := by
  induction is with
  | nil => intro s; simp [reconcileRuns]
  | cons i is ih =>
    intro s
    simp only [reconcileRuns, reconcileRun]
    rw [ih, hasAnalysisAt_resumeRun]

theorem shardsAt_reconcileRuns_notMem (nf j : Nat) (is : List Nat)
    (hj : j ∉ is) : ∀ s : SimState,
    shardsAt (reconcileRuns s nf is).1 j = shardsAt s j := by
  induction is with
  | nil => intro s; simp [reconcileRuns]
  | cons i is ih =>
    intro s
    have hji : j ≠ i := fun h => hj (h ▸ List.mem_cons_self i is)
    have hjs : j ∉ is := fun h => hj (List.mem_cons_of_mem i h)
    simp only [reconcileRuns, reconcileRun]
    rw [ih hjs, shardsAt_resumeRun_ne i j _ hji]

theorem shardsAt_reconcileRuns_mem (nf j : Nat) (is : List Nat) :
    is.Nodup → j ∈ is → ∀ s : SimState, j < s.runs.length →
    shardsAt (reconcileRuns s nf is).1 j = max (shardsAt s j) nf := by
  induction is with
  | nil => intro _ hj; exact absurd hj (List.not_mem_nil j)
  | cons i is ih =>
    intro hnd hj s hlt
    rcases List.mem_cons.mp hj with hji | hjs
    · subst hji
      have hnotin : j ∉ is := (List.nodup_cons.mp hnd).1
      simp only [reconcileRuns, reconcileRun]
      rw [shardsAt_reconcileRuns_notMem nf j is hnotin,
        shardsAt_resumeRun_self j _ s hlt]
      omega
    · have hji : j ≠ i := by
        intro h
        exact (List.nodup_cons.mp hnd).1 (h ▸ hjs)
      simp only [reconcileRuns, reconcileRun]
      rw [ih (List.nodup_cons.mp hnd).2 hjs _ (by rwa [resumeRun_length]),
        shardsAt_resumeRun_ne i j _ hji]

theorem resumeTrace_congr (s s' : SimState) (nf : Nat) (is : List Nat)
    (h : ∀ i ∈ is, shardsAt s i = shardsAt s' i) :
    resumeTrace s nf is = resumeTrace s' nf is := by
  induction is with
  | nil => rfl
  | cons i is ih =>
    simp only [resumeTrace]
    rw [h i (List.mem_cons_self i is),
      ih fun i' hi' => h i' (List.mem_cons_of_mem i hi')]

theorem analyzeFlag_congr (s s' : SimState) (nf : Nat) (is : List Nat)
    (h1 : ∀ i ∈ is, shardsAt s i = shardsAt s' i)
    (h2 : ∀ i ∈ is, hasAnalysisAt s i = hasAnalysisAt s' i) :
    analyzeFlag s nf is = analyzeFlag s' nf is := by
  induction is with
  | nil => rfl
  | cons i is ih =>
    simp only [analyzeFlag]
    rw [h1 i (List.mem_cons_self i is), h2 i (List.mem_cons_self i is),
      ih (fun i' hi' => h1 i' (List.mem_cons_of_mem i hi'))
        (fun i' hi' => h2 i' (List.mem_cons_of_mem i hi'))]

theorem reconcileRuns_trace (nf : Nat) (is : List Nat) :
    is.Nodup → ∀ s : SimState, (∀ i ∈ is, i < s.runs.length) →
    (reconcileRuns s nf is).2.1 = resumeTrace s nf is := by
  induction is with
  | nil => intro _ s _; rfl
  | cons i is ih =>
    intro hnd s hlt
    have hi : i < s.runs.length := hlt i (List.mem_cons_self i is)
    have hnotin : i ∉ is := (List.nodup_cons.mp hnd).1
    simp only [reconcileRuns, reconcileRun, resumeTrace]
    rw [resumeRun_trace i _ s hi,
      ih (List.nodup_cons.mp hnd).2 _
        (fun i' hi' => by
          rw [resumeRun_length]
          exact hlt i' (List.mem_cons_of_mem i hi'))]
    refine congrArg _ (resumeTrace_congr _ _ _ _ fun i' hi' => ?_)
    exact shardsAt_resumeRun_ne i i' _
      (fun h => hnotin (h ▸ hi')) s

theorem reconcileRuns_flag (nf : Nat) (is : List Nat) :
    is.Nodup → ∀ s : SimState,
    (reconcileRuns s nf is).2.2 = analyzeFlag s nf is := by
  induction is with
  | nil => intro _ s; rfl
  | cons i is ih =>
    intro hnd s
    have hnotin : i ∉ is := (List.nodup_cons.mp hnd).1
    simp only [reconcileRuns, reconcileRun, analyzeFlag]
    rw [ih (List.nodup_cons.mp hnd).2]
    refine congrArg _ (analyzeFlag_congr _ _ _ _
      (fun i' hi' => ?_) (fun i' hi' => ?_))
    · exact shardsAt_resumeRun_ne i i' _ (fun h => hnotin (h ▸ hi')) s
    · exact hasAnalysisAt_resumeRun i i' _ s

/-! ## Closed forms of `run_sim` -/

theorem runSim_trace (s : SimState) (opts : RunOptions) :
    (runSim s opts).2
      = List.replicate (opts.nRuns - s.runs.length) Inv.create
        ++ resumeTrace s opts.nFiles (List.range opts.nRuns)
        ++ (if analyzeFlag s opts.nFiles (List.range opts.nRuns)
            then [Inv.analyze] else []) := by
  have hpad : (createRuns s (opts.nRuns - s.runs.length)).1
      = padded s opts.nRuns := by
    rw [createRuns_eq]
    rfl
  have hin : ∀ i ∈ List.range opts.nRuns,
      i < (padded s opts.nRuns).runs.length := by
    intro i hi
    rw [padded_length]
    have := List.mem_range.mp hi
    omega
  have hsh : ∀ i ∈ List.range opts.nRuns,
      shardsAt (padded s opts.nRuns) i = shardsAt s i :=
    fun i _ => padded_shardsAt s opts.nRuns i
  have han : ∀ i ∈ List.range opts.nRuns,
      hasAnalysisAt (padded s opts.nRuns) i = hasAnalysisAt s i :=
    fun i _ => padded_hasAnalysisAt s opts.nRuns i
  have htr : (reconcileRuns (padded s opts.nRuns) opts.nFiles
      (List.range opts.nRuns)).2.1
      = resumeTrace s opts.nFiles (List.range opts.nRuns) := by
    rw [reconcileRuns_trace opts.nFiles _ (List.nodup_range _) _ hin]
    exact resumeTrace_congr _ _ _ _ hsh
  have hfl : (reconcileRuns (padded s opts.nRuns) opts.nFiles
      (List.range opts.nRuns)).2.2
      = analyzeFlag s opts.nFiles (List.range opts.nRuns) := by
    rw [reconcileRuns_flag opts.nFiles _ (List.nodup_range _)]
    exact analyzeFlag_congr _ _ _ _ hsh han
  have hct : (createRuns s (opts.nRuns - s.runs.length)).2
      = List.replicate (opts.nRuns - s.runs.length) Inv.create := by
    rw [createRuns_eq]
  simp only [runSim]
  rw [hpad, hfl, htr, hct]
  cases analyzeFlag s opts.nFiles (List.range opts.nRuns) <;> simp

theorem runSim_length (s : SimState) (opts : RunOptions) :
    (runSim s opts).1.runs.length = max s.runs.length opts.nRuns := by
  have hpad : (createRuns s (opts.nRuns - s.runs.length)).1
      = padded s opts.nRuns := by
    rw [createRuns_eq]
    rfl
  simp only [runSim]
  rw [hpad]
  cases h : (reconcileRuns (padded s opts.nRuns) opts.nFiles
      (List.range opts.nRuns)).2.2 <;>
    simp [h, applyAnalyze_length, reconcileRuns_length, padded_length]

theorem shardsAt_runSim (s : SimState) (opts : RunOptions) (i : Nat) :
    shardsAt (runSim s opts).1 i
      = if i < opts.nRuns then max (shardsAt s i) opts.nFiles
        else shardsAt s i := by
  have hpad : (createRuns s (opts.nRuns - s.runs.length)).1
      = padded s opts.nRuns := by
    rw [createRuns_eq]
    rfl
  have hbody : shardsAt (reconcileRuns (padded s opts.nRuns) opts.nFiles
      (List.range opts.nRuns)).1 i
      = if i < opts.nRuns then max (shardsAt s i) opts.nFiles
        else shardsAt s i := by
    by_cases hi : i < opts.nRuns
    · rw [shardsAt_reconcileRuns_mem opts.nFiles i _ (List.nodup_range _)
        (List.mem_range.mpr hi) _
        (by rw [padded_length]; omega), padded_shardsAt]
      simp [hi]
    · rw [shardsAt_reconcileRuns_notMem opts.nFiles i _
        (fun h => hi (List.mem_range.mp h)), padded_shardsAt]
      simp [hi]
  simp only [runSim]
  rw [hpad]
  cases h : (reconcileRuns (padded s opts.nRuns) opts.nFiles
      (List.range opts.nRuns)).2.2 <;>
    simp only [h, if_true, if_false, Bool.false_eq_true, ite_false, ite_true,
      shardsAt_applyAnalyze, hbody]

theorem getD_map_setAnalysis_flag (rs : List RunDir) (i : Nat)
    (h : i < rs.length) :
    ((rs.map fun r => (⟨r.shards, true⟩ : RunDir)).getD i newRun).hasAnalysis
      = true := by
  induction rs generalizing i with
  | nil => simp at h
  | cons r rs ih =>
    cases i with
    | zero => simp
    | succ n =>
      simp only [List.map_cons, List.getD_cons_succ]
      exact ih n (by simpa using h)

theorem hasAnalysisAt_applyAnalyze_lt (s : SimState) (i : Nat)
    (h : i < s.runs.length) : hasAnalysisAt (applyAnalyze s) i = true :=
  getD_map_setAnalysis_flag s.runs i h

theorem hasAnalysisAt_runSim_ge (s : SimState) (opts : RunOptions) (i : Nat)
    (hge : opts.nRuns ≤ i) (hlt : i < s.runs.length) :
    hasAnalysisAt (runSim s opts).1 i
      = (hasAnalysisAt s i
          || analyzeFlag s opts.nFiles (List.range opts.nRuns)) := by
  have hpad : (createRuns s (opts.nRuns - s.runs.length)).1
      = padded s opts.nRuns := by
    rw [createRuns_eq]
    rfl
  have hsh : ∀ j ∈ List.range opts.nRuns,
      shardsAt (padded s opts.nRuns) j = shardsAt s j :=
    fun j _ => padded_shardsAt s opts.nRuns j
  have han : ∀ j ∈ List.range opts.nRuns,
      hasAnalysisAt (padded s opts.nRuns) j = hasAnalysisAt s j :=
    fun j _ => padded_hasAnalysisAt s opts.nRuns j
  have hfl : (reconcileRuns (padded s opts.nRuns) opts.nFiles
      (List.range opts.nRuns)).2.2
      = analyzeFlag s opts.nFiles (List.range opts.nRuns) := by
    rw [reconcileRuns_flag opts.nFiles _ (List.nodup_range _)]
    exact analyzeFlag_congr _ _ _ _ hsh han
  have hbody : hasAnalysisAt (reconcileRuns (padded s opts.nRuns)
      opts.nFiles (List.range opts.nRuns)).1 i = hasAnalysisAt s i := by
    rw [hasAnalysisAt_reconcileRuns, padded_hasAnalysisAt]
  simp only [runSim]
  rw [hpad, hfl]
  cases hf : analyzeFlag s opts.nFiles (List.range opts.nRuns)
  · simp [hbody]
  · simp only [if_true, ite_true]
    rw [hasAnalysisAt_applyAnalyze_lt]
    · simp
    · rw [reconcileRuns_length, padded_length]
      omega

/-! ## Trace facts used by the claims -/

theorem resumeTrace_eq_nil (s : SimState) (nf : Nat) (is : List Nat)
    (h : ∀ i ∈ is, nf ≤ shardsAt s i) : resumeTrace s nf is = [] := by
  induction is with
  | nil => rfl
  | cons i is ih =>
    have h0 : nf - shardsAt s i = 0 := by
      have := h i (List.mem_cons_self i is)
      omega
    simp only [resumeTrace, h0]
    simp [ih fun i' hi' => h i' (List.mem_cons_of_mem i hi')]

theorem analyzeFlag_eq_false (s : SimState) (nf : Nat) (is : List Nat)
    (h : ∀ i ∈ is, nf ≤ shardsAt s i ∧ hasAnalysisAt s i = true) :
    analyzeFlag s nf is = false := by
  induction is with
  | nil => rfl
  | cons i is ih =>
    have hi := h i (List.mem_cons_self i is)
    have h0 : nf - shardsAt s i = 0 := by omega
    simp only [analyzeFlag, h0, hi.2]
    simp [ih fun i' hi' => h i' (List.mem_cons_of_mem i hi')]

theorem mem_resumeTrace (s : SimState) (nf : Nat) (is : List Nat) (inv : Inv)
    (h : inv ∈ resumeTrace s nf is) : ∃ i ∈ is, ∃ j, inv = Inv.resume i j := by
  induction is with
  | nil => exact absurd h (List.not_mem_nil inv)
  | cons i is ih =>
    simp only [resumeTrace, List.mem_append] at h
    rcases h with h | h
    · rcases List.mem_map.mp h with ⟨j, _, rfl⟩
      exact ⟨i, List.mem_cons_self i is, _, rfl⟩
    · rcases ih h with ⟨i', hi', j, rfl⟩
      exact ⟨i', List.mem_cons_of_mem i hi', j, rfl⟩

theorem filter_resume_block_self (i sh k : Nat) :
    ((List.range k).map fun j => Inv.resume i (sh + j)).filter (isResumeOf i)
      = (List.range k).map fun j => Inv.resume i (sh + j) := by
  refine List.filter_eq_self.mpr fun a ha => ?_
  rcases List.mem_map.mp ha with ⟨j, _, rfl⟩
  simp [isResumeOf]

theorem filter_resume_block_ne (i' i sh k : Nat) (h : i' ≠ i) :
    ((List.range k).map fun j => Inv.resume i' (sh + j)).filter (isResumeOf i)
      = [] := by
  refine List.filter_eq_nil_iff.mpr fun a ha => ?_
  rcases List.mem_map.mp ha with ⟨j, _, rfl⟩
  simp [isResumeOf, h]

theorem resumeTrace_filter_notMem (s : SimState) (nf : Nat) (is : List Nat)
    (i : Nat) (h : i ∉ is) :
    (resumeTrace s nf is).filter (isResumeOf i) = [] := by
  induction is with
  | nil => rfl
  | cons i' is ih =>
    have hne : i' ≠ i := fun he => h (he ▸ List.mem_cons_self i' is)
    simp only [resumeTrace, List.filter_append,
      filter_resume_block_ne i' i _ _ hne,
      ih fun hi => h (List.mem_cons_of_mem i' hi)]
    rfl

theorem resumeTrace_filter_mem (s : SimState) (nf : Nat) (is : List Nat)
    (i : Nat) (hnd : is.Nodup) (hmem : i ∈ is) :
    (resumeTrace s nf is).filter (isResumeOf i)
      = (List.range (nf - shardsAt s i)).map
          fun j => Inv.resume i (shardsAt s i + j) := by
  induction is with
  | nil => exact absurd hmem (List.not_mem_nil i)
  | cons i' is ih =>
    rcases List.mem_cons.mp hmem with rfl | hmem'
    · have hnotin : i ∉ is := (List.nodup_cons.mp hnd).1
      simp only [resumeTrace, List.filter_append, filter_resume_block_self,
        resumeTrace_filter_notMem s nf is i hnotin]
      simp
    · have hne : i' ≠ i := fun he =>
        (List.nodup_cons.mp hnd).1 (he ▸ hmem')
      simp only [resumeTrace, List.filter_append,
        filter_resume_block_ne i' i _ _ hne,
        ih (List.nodup_cons.mp hnd).2 hmem']
      simp

/-! ## Claims about the Reconciler -/

/-- C1: for every job directory whose on-disk state already satisfies
`run_options` — at least `n_runs` run directories exist, each of the first
`n_runs` runs has at least `n_files` shards and an existing analysis
artifact — `run_sim` performs zero engine invocations: no create, resume,
analyze, or clean process is spawned.  (The `scripts/utils/exec.py`
variant embedded here has no `clean` option, so "clean is not requested"
holds vacuously; it can never spawn a clean.) -/
theorem run_sim_idempotent (s : SimState) (opts : RunOptions)
    (hr : opts.nRuns ≤ s.runs.length)
    (hf : ∀ i < opts.nRuns, opts.nFiles ≤ shardsAt s i)
    (ha : ∀ i < opts.nRuns, hasAnalysisAt s i = true) :
    (runSim s opts).2 = [] := by
  rw [runSim_trace]
  have h0 : opts.nRuns - s.runs.length = 0 := by omega
  rw [h0,
    resumeTrace_eq_nil s _ _ (fun i hi => hf i (List.mem_range.mp hi)),
    analyzeFlag_eq_false s _ _ (fun i hi =>
      ⟨hf i (List.mem_range.mp hi), ha i (List.mem_range.mp hi)⟩)]
  rfl

/-- Witness for C1: a job with `n_runs = 2, n_files = 3` whose directory
already holds two runs with three shards each and their analysis
artifacts gets zero engine invocations. -/
theorem run_sim_idempotent_witness :
    2 ≤ (⟨[⟨3, true⟩, ⟨3, true⟩]⟩ : SimState).runs.length ∧
    (∀ i < 2, 3 ≤ shardsAt ⟨[⟨3, true⟩, ⟨3, true⟩]⟩ i) ∧
    (∀ i < 2, hasAnalysisAt ⟨[⟨3, true⟩, ⟨3, true⟩]⟩ i = true) ∧
    (runSim ⟨[⟨3, true⟩, ⟨3, true⟩]⟩ ⟨2, 3⟩).2 = [] :=
  ⟨by decide, by decide, by decide,
    run_sim_idempotent ⟨[⟨3, true⟩, ⟨3, true⟩]⟩ ⟨2, 3⟩
      (by decide) (by decide) (by decide)⟩

/-- Counterexample to C4: on a clean start with `n_runs = 2, n_files = 3`,
`run_sim` does *not* perform 2 analyze invocations — the single
`run_bin(sim_dir, ["analyze"])` call at the end of `run_sim` is issued at
most once per reconciliation, so the trace contains exactly one
`analyze`. -/
theorem run_sim_clean_start_counterexample :
    (runSim ⟨[]⟩ ⟨2, 3⟩).2.count Inv.analyze ≠ 2 := by decide

/-- C4 as amended: starting from an empty job directory, reconciling with
`n_runs = 2, n_files = 3` performs exactly 2 create invocations, exactly
6 resume invocations (shards 0,1,2 of run 0 then shards 0,1,2 of run 1),
and exactly **1** analyze invocation, producing run directories
`run-0000` and `run-0001` each containing shards `output-0000` through
`output-0002` (and an analysis artifact). -/
theorem run_sim_clean_start_scenario :
    runSim ⟨[]⟩ ⟨2, 3⟩
      = (⟨[⟨3, true⟩, ⟨3, true⟩]⟩,
         [Inv.create, Inv.create,
          Inv.resume 0 0, Inv.resume 0 1, Inv.resume 0 2,
          Inv.resume 1 0, Inv.resume 1 1, Inv.resume 1 2,
          Inv.analyze]) := by decide

/-- C5: if `n_files` increases by `d` between two reconciliations of the
same job (same `n_runs`, state untouched in between, and no run
over-full before the first pass), the second reconciliation performs
exactly `d` additional resume invocations for each run `i < n_runs`, and
the shard indices resumed in the second pass start exactly at `n1`, the
shard count each run has after the first pass — no already-satisfied
shard index is re-invoked. -/
theorem run_sim_incremental (s : SimState) (nRuns n1 d i : Nat)
    (hsh : ∀ r < nRuns, shardsAt s r ≤ n1) (hi : i < nRuns) :
    ((runSim (runSim s ⟨nRuns, n1⟩).1 ⟨nRuns, n1 + d⟩).2.filter
        (isResumeOf i))
      = (List.range d).map fun j => Inv.resume i (n1 + j) := by
  have hlen : (runSim s ⟨nRuns, n1⟩).1.runs.length
      = max s.runs.length nRuns := runSim_length s ⟨nRuns, n1⟩
  have hsh1 : ∀ r < nRuns, shardsAt (runSim s ⟨nRuns, n1⟩).1 r = n1 := by
    intro r hr
    rw [shardsAt_runSim]
    have := hsh r hr
    simp only [hr, if_true]
    omega
  rw [runSim_trace, List.filter_append, List.filter_append]
  have hcreate0 : (⟨nRuns, n1 + d⟩ : RunOptions).nRuns
      - (runSim s ⟨nRuns, n1⟩).1.runs.length = 0 := by
    simp only [hlen]
    omega
  rw [hcreate0,
    resumeTrace_filter_mem _ _ _ i (List.nodup_range _)
      (List.mem_range.mpr hi),
    hsh1 i hi]
  have hana : ((if analyzeFlag (runSim s ⟨nRuns, n1⟩).1
      (⟨nRuns, n1 + d⟩ : RunOptions).nFiles (List.range nRuns)
      then [Inv.analyze] else []).filter (isResumeOf i)) = [] := by
    cases analyzeFlag (runSim s ⟨nRuns, n1⟩).1
      (⟨nRuns, n1 + d⟩ : RunOptions).nFiles (List.range nRuns) <;>
      simp [isResumeOf]
  simp only [hana]
  have hd : n1 + d - n1 = d := by omega
  simp [hd]

/-- Witness for C5: one run, first pass to 2 shards, second pass to 4:
exactly the two resumes of shards 2 and 3 of run 0 occur. -/
theorem run_sim_incremental_witness :
    (∀ r < 1, shardsAt ⟨[]⟩ r ≤ 2) ∧ 0 < 1 ∧
    ((runSim (runSim ⟨[]⟩ ⟨1, 2⟩).1 ⟨1, 2 + 2⟩).2.filter (isResumeOf 0))
      = (List.range 2).map (fun j => Inv.resume 0 (2 + j)) :=
  ⟨by decide, by decide,
    run_sim_incremental ⟨[]⟩ 1 2 2 0 (by decide) (by decide)⟩

/-- Counterexample to C10: run directories with index `≥ n_runs` are
*not* "never removed or modified": the single unscoped analyze
invocation `run_bin(sim_dir, ["analyze"])` issued by `run_sim` makes the
engine (re)write the analysis artifact of *every* existing run.  With
two run directories, `n_runs = 1` and `n_files = 1`, the extra run
`run-0001` starts without an analysis artifact and ends with one: its
directory is modified. -/
theorem run_sim_frame_counterexample :
    (runSim ⟨[⟨0, false⟩, ⟨5, false⟩]⟩ ⟨1, 1⟩).1.runs.getD 1 newRun
      = ⟨5, true⟩ ∧
    (⟨[⟨0, false⟩, ⟨5, false⟩]⟩ : SimState).runs.getD 1 newRun
      = ⟨5, false⟩ := by decide

/-- C10 as amended: `run_sim` only targets run indices in `[0, n_runs)`:
when at least `n_runs` run directories already exist it issues no create
invocation; it never issues a resume with run index `≥ n_runs`; it never
issues a clean; run directories with index `≥ n_runs` are never removed
(the run count only grows, to `max` of the existing count and `n_runs`)
and their shard contents never change; and its decisions read only the
run count and the runs with index `< n_runs` — two states agreeing there
produce identical traces.  They are however not left entirely
unmodified: exactly when the analyze flag fires, the unscoped analyze
invocation writes the analysis artifact of every existing run,
including those with index `≥ n_runs`. -/
theorem run_sim_frame (s s' : SimState) (opts : RunOptions)
    (hlen : s'.runs.length = s.runs.length)
    (hagree : ∀ i < opts.nRuns, s'.runs.getD i newRun = s.runs.getD i newRun) :
    (opts.nRuns ≤ s.runs.length → Inv.create ∉ (runSim s opts).2) ∧
    (∀ i j, Inv.resume i j ∈ (runSim s opts).2 → i < opts.nRuns) ∧
    Inv.clean ∉ (runSim s opts).2 ∧
    (runSim s opts).1.runs.length = max s.runs.length opts.nRuns ∧
    (∀ i, opts.nRuns ≤ i → shardsAt (runSim s opts).1 i = shardsAt s i) ∧
    (∀ i, opts.nRuns ≤ i → i < s.runs.length →
      hasAnalysisAt (runSim s opts).1 i
        = (hasAnalysisAt s i
            || analyzeFlag s opts.nFiles (List.range opts.nRuns))) ∧
    (runSim s' opts).2 = (runSim s opts).2 := by
  refine ⟨?_, ?_, ?_, runSim_length s opts, ?_,
    fun i hge hlt => hasAnalysisAt_runSim_ge s opts i hge hlt, ?_⟩
  · intro hr hmem
    rw [runSim_trace] at hmem
    have h0 : opts.nRuns - s.runs.length = 0 := by omega
    rw [h0] at hmem
    simp only [List.replicate, List.nil_append, List.mem_append] at hmem
    rcases hmem with hmem | hmem
    · rcases mem_resumeTrace _ _ _ _ hmem with ⟨_, _, _, h⟩
      exact Inv.noConfusion h
    · cases hfl : analyzeFlag s opts.nFiles (List.range opts.nRuns) <;>
        rw [hfl] at hmem <;> simp at hmem
  · intro i j hmem
    rw [runSim_trace] at hmem
    simp only [List.mem_append] at hmem
    rcases hmem with (hmem | hmem) | hmem
    · exact absurd (List.eq_of_mem_replicate hmem) (by intro h; cases h)
    · rcases mem_resumeTrace _ _ _ _ hmem with ⟨i', hi', j', h⟩
      cases h
      exact List.mem_range.mp hi'
    · cases hfl : analyzeFlag s opts.nFiles (List.range opts.nRuns) <;>
        rw [hfl] at hmem <;> simp at hmem
  · intro hmem
    rw [runSim_trace] at hmem
    simp only [List.mem_append] at hmem
    rcases hmem with (hmem | hmem) | hmem
    · exact absurd (List.eq_of_mem_replicate hmem) (by intro h; cases h)
    · rcases mem_resumeTrace _ _ _ _ hmem with ⟨_, _, _, h⟩
      exact Inv.noConfusion h
    · cases hfl : analyzeFlag s opts.nFiles (List.range opts.nRuns) <;>
        rw [hfl] at hmem <;> simp at hmem
  · intro i hge
    rw [shardsAt_runSim]
    simp [Nat.not_lt.mpr hge]
  · have hsh : ∀ i ∈ List.range opts.nRuns, shardsAt s' i = shardsAt s i :=
      fun i hi => congrArg RunDir.shards (hagree i (List.mem_range.mp hi))
    have han : ∀ i ∈ List.range opts.nRuns,
        hasAnalysisAt s' i = hasAnalysisAt s i :=
      fun i hi => congrArg RunDir.hasAnalysis (hagree i (List.mem_range.mp hi))
    rw [runSim_trace, runSim_trace, hlen,
      resumeTrace_congr s' s _ _ hsh, analyzeFlag_congr s' s _ _ hsh han]

/-- Witness for C10: two states that agree on the single reconciled run
but differ in an extra run directory `run-0001` produce the same trace. -/
theorem run_sim_frame_witness :
    (⟨[⟨1, true⟩, ⟨7, true⟩]⟩ : SimState).runs.length
      = (⟨[⟨1, true⟩, ⟨5, false⟩]⟩ : SimState).runs.length ∧
    (runSim ⟨[⟨1, true⟩, ⟨7, true⟩]⟩ ⟨1, 2⟩).2
      = (runSim ⟨[⟨1, true⟩, ⟨5, false⟩]⟩ ⟨1, 2⟩).2 :=
  ⟨by decide,
    (run_sim_frame ⟨[⟨1, true⟩, ⟨5, false⟩]⟩ ⟨[⟨1, true⟩, ⟨7, true⟩]⟩ ⟨1, 2⟩
      (by decide) (by decide)).2.2.2.2.2.2⟩

/-! ## Claims about the Engine Invoker, Job Runner and Pool Dispatcher -/

/-- C8: before every engine invocation the invoker consults the
cancellation token: with `stop_requested` set it raises `StopRequested`
and spawns nothing (the spawn list of a raising call is empty — there is
no `.ok` payload); with the token clear it spawns the engine process
exactly once and the invocation runs synchronously to completion — the
`.ok` payload carries the invocation's entire effect applied atomically,
so the token never interrupts it mid-invocation. -/
theorem run_bin_cancellation (s : SimState) (inv : Inv) :
    runBin true s inv = Except.error () ∧
    runBin false s inv = Except.ok (applyInv s inv, [inv]) :=
  ⟨rfl, rfl⟩

/-- Counterexample to C7: lock contention is *not* treated as a soft
failure-to-start distinct from a hard error — `fcntl.flock` raising is
caught by the generic `except Exception` handler, so the job returns
`JobResult.FAILED`, exactly the outcome of a hard error, and the
dispatcher escalates it to the hard-failure exit (exit code 1,
`RuntimeError("some job failed")`). -/
theorem lock_contention_counterexample :
    (executeSimJob true ⟨[]⟩ ⟨1, 1⟩).1 = JobResult.failed ∧
    pythonExitCode (executeDecision [(executeSimJob true ⟨[]⟩ ⟨1, 1⟩).1]) = 1
    := by decide

/-- C7 as amended: when another process holds the lock, acquisition fails
immediately (`LOCK_NB`: no blocking), the job performs no reconciliation
work — no engine invocation, job state untouched — but the contention is
reported as the generic `JobResult.FAILED` outcome, which the dispatcher
treats as a hard failure (`RuntimeError("some job failed")`), not as a
distinct soft failure-to-start. -/
theorem lock_contention_failed (s : SimState) (opts : RunOptions) :
    executeSimJob true s opts = (JobResult.failed, s, []) ∧
    executeDecision [(executeSimJob true s opts).1]
      = Except.error "some job failed" :=
  ⟨rfl, rfl⟩

/-- Counterexample to C6: the graceful-stop decision does *not* exit with
a code distinct from hard failure — both `{Finished, Stopped}` and
`{Finished, Failed}` raise a `RuntimeError` (differing only in message),
so the interpreter exits 1 in both cases. -/
theorem execute_decision_exit_counterexample :
    pythonExitCode (executeDecision [JobResult.finished, JobResult.stopped])
      = pythonExitCode (executeDecision [JobResult.finished, JobResult.failed])
    := by decide

/-- C6 as amended: the dispatcher collects one outcome per job and only
then decides: any `Failed` outcome gives the hard failure
`RuntimeError("some job failed")`; otherwise any `Stopped` outcome gives
`RuntimeError("some job was stopped")` — distinguishable from hard
failure only by message, with the same non-zero exit code 1, while
success exits 0; and the decision is invariant under reordering of the
outcomes. -/
theorem execute_decision_aggregation (rs rs' : List JobResult)
    (hp : rs.Perm rs') :
    executeDecision rs = executeDecision rs' ∧
    (JobResult.failed ∈ rs →
      executeDecision rs = Except.error "some job failed") ∧
    (JobResult.failed ∉ rs → JobResult.stopped ∈ rs →
      executeDecision rs = Except.error "some job was stopped") ∧
    (JobResult.failed ∉ rs → JobResult.stopped ∉ rs →
      executeDecision rs = Except.ok ()) ∧
    pythonExitCode (Except.error "some job was stopped")
      = pythonExitCode (Except.error "some job failed") ∧
    pythonExitCode (Except.ok ()) = 0 := by
  refine ⟨?_, ?_, ?_, ?_, rfl, rfl⟩
  · unfold executeDecision
    rw [hp.count_eq, hp.count_eq]
  · intro hmem
    unfold executeDecision
    rw [if_pos (List.count_pos_iff.mpr hmem)]
  · intro hnf hms
    unfold executeDecision
    rw [if_neg (by simpa using fun h => hnf (List.count_pos_iff.mp h)),
      if_pos (List.count_pos_iff.mpr hms)]
  · intro hnf hns
    unfold executeDecision
    rw [if_neg (by simpa using fun h => hnf (List.count_pos_iff.mp h)),
      if_neg (by simpa using fun h => hns (List.count_pos_iff.mp h))]

/-- Witness for C6 (amended): `{Finished, Stopped}` in either order gives
the graceful-stop error. -/
theorem execute_decision_aggregation_witness :
    executeDecision [JobResult.finished, JobResult.stopped]
      = executeDecision [JobResult.stopped, JobResult.finished] ∧
    executeDecision [JobResult.finished, JobResult.stopped]
      = Except.error "some job was stopped" :=
  ⟨(execute_decision_aggregation _ _ (by decide)).1,
    (execute_decision_aggregation
      [JobResult.finished, JobResult.stopped]
      [JobResult.stopped, JobResult.finished] (by decide)).2.2.1
      (by decide) (by decide)⟩

/-! ## The key order -/

theorem string_eq_of_data_eq (a b : String) (h : a.data = b.data) : a = b := by
  cases a
  cases b
  exact congrArg String.mk h

theorem lexLe_refl : ∀ as : List Char, lexLe as as = true
  | [] => rfl
  | a :: as => by
    simp only [lexLe, if_neg (lt_irrefl a)]
    exact lexLe_refl as

theorem lexLe_total : ∀ as bs : List Char,
    lexLe as bs = true ∨ lexLe bs as = true
  | [], _ => Or.inl rfl
  | _ :: _, [] => Or.inr rfl
  | a :: as, b :: bs => by
    rcases lt_trichotomy a b with hab | hab | hab
    · exact Or.inl (by simp [lexLe, hab])
    · subst hab
      rcases lexLe_total as bs with h | h
      · exact Or.inl (by simp [lexLe, if_neg (lt_irrefl a), h])
      · exact Or.inr (by simp [lexLe, if_neg (lt_irrefl a), h])
    · exact Or.inr (by simp [lexLe, hab])

theorem lexLe_trans : ∀ as bs cs : List Char,
    lexLe as bs = true → lexLe bs cs = true → lexLe as cs = true
  | [], _, _, _, _ => rfl
  | _ :: _, [], _, h1, _ => by simp [lexLe] at h1
  | _ :: _, _ :: _, [], _, h2 => by simp [lexLe] at h2
  | a :: as, b :: bs, c :: cs, h1, h2 => by
    rcases lt_trichotomy a b with hab | hab | hab
    · rcases lt_trichotomy b c with hbc | hbc | hbc
      · simp [lexLe, lt_trans hab hbc]
      · subst hbc
        simp [lexLe, hab]
      · rw [lexLe, if_neg (lt_asymm hbc), if_pos hbc] at h2
        exact absurd h2 (by simp)
    · subst hab
      rw [lexLe, if_neg (lt_irrefl a), if_neg (lt_irrefl a)] at h1
      rcases lt_trichotomy a c with hac | hac | hac
      · simp [lexLe, hac]
      · subst hac
        rw [lexLe, if_neg (lt_irrefl a), if_neg (lt_irrefl a)] at h2 ⊢
        exact lexLe_trans as bs cs h1 h2
      · rw [lexLe, if_neg (lt_asymm hac), if_pos hac] at h2
        exact absurd h2 (by simp)
    · rw [lexLe, if_neg (lt_asymm hab), if_pos hab] at h1
      exact absurd h1 (by simp)

theorem lexLe_antisymm : ∀ as bs : List Char,
    lexLe as bs = true → lexLe bs as = true → as = bs
  | [], [], _, _ => rfl
  | [], _ :: _, _, h2 => by simp [lexLe] at h2
  | _ :: _, [], h1, _ => by simp [lexLe] at h1
  | a :: as, b :: bs, h1, h2 => by
    rcases lt_trichotomy a b with hab | hab | hab
    · rw [lexLe, if_neg (lt_asymm hab), if_pos hab] at h2
      exact absurd h2 (by simp)
    · subst hab
      rw [lexLe, if_neg (lt_irrefl a), if_neg (lt_irrefl a)] at h1 h2
      rw [lexLe_antisymm as bs h1 h2]
    · rw [lexLe, if_neg (lt_asymm hab), if_pos hab] at h1
      exact absurd h1 (by simp)

instance : IsTotal (String × Json) keyLe :=
  ⟨fun p q => lexLe_total p.1.data q.1.data⟩

instance : IsTrans (String × Json) keyLe :=
  ⟨fun p q r => lexLe_trans p.1.data q.1.data r.1.data⟩

instance : IsAntisymm (String × Json) keyLt :=
  ⟨fun p q h1 h2 =>
    absurd (string_eq_of_data_eq p.1 q.1
      (lexLe_antisymm p.1.data q.1.data h1.1 h2.1)) h1.2⟩

/-! ## Association-list lemmas -/

theorem lookupJ_mem (k : String) (w : Json) : ∀ ps : List (String × Json),
    lookupJ k ps = some w → (k, w) ∈ ps := by
  intro ps
  induction ps with
  | nil => intro h; simp [lookupJ] at h
  | cons p ps ih =>
    obtain ⟨k', v⟩ := p
    intro h
    by_cases hk : k = k'
    · subst hk
      simp [lookupJ] at h
      subst h
      exact List.mem_cons_self _ _
    · simp only [lookupJ, if_neg hk] at h
      exact List.mem_cons_of_mem _ (ih h)

theorem mem_keysOf_of_lookupJ (k : String) (ps : List (String × Json))
    (w : Json) (h : lookupJ k ps = some w) : k ∈ keysOf ps :=
  List.mem_map.mpr ⟨(k, w), lookupJ_mem k w ps h, rfl⟩

theorem lookupJ_isSome_of_mem_keys (k : String) :
    ∀ ps : List (String × Json), k ∈ keysOf ps →
    ∃ w, lookupJ k ps = some w := by
  intro ps
  induction ps with
  | nil => intro h; simp [keysOf] at h
  | cons p ps ih =>
    obtain ⟨k', v⟩ := p
    intro h
    by_cases hk : k = k'
    · subst hk
      exact ⟨v, by simp [lookupJ]⟩
    · have : k ∈ keysOf ps := by
        simp only [keysOf, List.map_cons, List.mem_cons] at h
        exact List.mem_map.mpr (by
          rcases h with h | h
          · exact absurd h hk
          · exact List.mem_map.mp h)
      rcases ih this with ⟨w, hw⟩
      exact ⟨w, by simp [lookupJ, hk, hw]⟩

theorem nodupKeys_head (k : String) (v : Json) (ps : List (String × Json))
    (h : nodupKeys ((k, v) :: ps) = true) :
    k ∉ keysOf ps ∧ nodupKeys ps = true := by
  simp only [nodupKeys, Bool.and_eq_true, Bool.not_eq_true'] at h
  refine ⟨fun hm => ?_, h.2⟩
  have : (ps.map Prod.fst).contains k = true := by simpa [keysOf] using hm
  rw [this] at h
  exact Bool.noConfusion h.1

theorem lookupJ_of_mem (k : String) (v : Json) :
    ∀ ps : List (String × Json), nodupKeys ps = true → (k, v) ∈ ps →
    lookupJ k ps = some v := by
  intro ps
  induction ps with
  | nil => intro _ hm; exact absurd hm (List.not_mem_nil _)
  | cons p ps ih =>
    obtain ⟨k', v'⟩ := p
    intro hnd hm
    rcases List.mem_cons.mp hm with h | h
    · obtain ⟨h1, h2⟩ := Prod.mk.injEq .. ▸ h
      subst h1
      subst h2
      simp [lookupJ]
    · have hk : k ≠ k' := by
        intro he
        subst he
        exact (nodupKeys_head k v' ps hnd).1
          (List.mem_map.mpr ⟨(k, v), h, rfl⟩)
      simp only [lookupJ, if_neg hk]
      exact ih (nodupKeys_head k' v' ps hnd).2 h

theorem nodupKeys_iff (ps : List (String × Json)) :
    nodupKeys ps = true ↔ (keysOf ps).Nodup := by
  induction ps with
  | nil => simp [nodupKeys, keysOf]
  | cons p ps ih =>
    obtain ⟨k, v⟩ := p
    constructor
    · intro h
      have hh := nodupKeys_head k v ps h
      simp only [keysOf, List.map_cons, List.nodup_cons]
      exact ⟨by simpa [keysOf] using hh.1, ih.mp hh.2⟩
    · intro h
      simp only [keysOf, List.map_cons, List.nodup_cons] at h
      simp only [nodupKeys, Bool.and_eq_true, Bool.not_eq_true']
      constructor
      · rcases hc : (ps.map Prod.fst).contains k with _ | _
        · rfl
        · exact absurd (by simpa using hc) h.1
      · exact ih.mpr h.2

/-! ## Unpacking well-formedness and structural equality -/

theorem wfL_mem (xs : List Json) (h : wfL xs = true) :
    ∀ x ∈ xs, wfJ x = true := by
  induction xs with
  | nil => intro x hx; exact absurd hx (List.not_mem_nil x)
  | cons y ys ih =>
    simp only [wfL, Bool.and_eq_true] at h
    intro x hx
    rcases List.mem_cons.mp hx with rfl | hx'
    · exact h.1
    · exact ih h.2 x hx'

theorem wfP_mem (ps : List (String × Json)) (h : wfP ps = true) :
    ∀ p ∈ ps, wfJ p.2 = true := by
  induction ps with
  | nil => intro p hp; exact absurd hp (List.not_mem_nil p)
  | cons q qs ih =>
    obtain ⟨k, v⟩ := q
    simp only [wfP, Bool.and_eq_true] at h
    intro p hp
    rcases List.mem_cons.mp hp with rfl | hp'
    · exact h.1
    · exact ih h.2 p hp'

theorem jeqP_forall (ys : List (String × Json)) :
    ∀ xs : List (String × Json), jeqP xs ys = true →
    ∀ p ∈ xs, ∃ w, lookupJ p.1 ys = some w ∧ jeq p.2 w = true := by
  intro xs
  induction xs with
  | nil => intro _ p hp; exact absurd hp (List.not_mem_nil p)
  | cons q qs ih =>
    obtain ⟨k, v⟩ := q
    intro h p hp
    rcases hlk : lookupJ k ys with _ | w
    · simp [jeqP, hlk] at h
    · simp only [jeqP, hlk, Bool.and_eq_true] at h
      rcases List.mem_cons.mp hp with rfl | hp'
      · exact ⟨w, hlk, h.1⟩
      · exact ih h.2 p hp'

theorem keys_subset_of_jeqP (xs ys : List (String × Json))
    (h : jeqP xs ys = true) : keysOf xs ⊆ keysOf ys := by
  intro k hk
  rcases List.mem_map.mp hk with ⟨p, hp, rfl⟩
  rcases jeqP_forall ys xs h p hp with ⟨w, hw, _⟩
  exact mem_keysOf_of_lookupJ p.1 ys w hw

/-! ## A membership induction principle for `Json` -/

theorem sizeOf_lt_of_mem_elems {x : Json} {xs : List Json} (h : x ∈ xs) :
    sizeOf x < sizeOf (Json.arr xs) := by
  have := List.sizeOf_lt_sizeOf_of_mem h
  simp only [Json.arr.sizeOf_spec]
  omega

theorem sizeOf_lt_of_mem_fields {p : String × Json}
    {kvs : List (String × Json)} (h : p ∈ kvs) :
    sizeOf p.2 < sizeOf (Json.obj kvs) := by
  have h1 := List.sizeOf_lt_sizeOf_of_mem h
  have h2 : sizeOf p.2 < sizeOf p := by
    obtain ⟨k, v⟩ := p
    simp only [Prod.mk.sizeOf_spec]
    omega
  simp only [Json.obj.sizeOf_spec]
  omega

/-- Induction on a `Json` value through list membership. -/
theorem Json.inductionOn (P : Json → Prop)
    (hatom : ∀ s, P (Json.atom s))
    (harr : ∀ xs, (∀ x ∈ xs, P x) → P (Json.arr xs))
    (hobj : ∀ kvs, (∀ p ∈ kvs, P p.2) → P (Json.obj kvs)) :
    ∀ j, P j
  | .atom s => hatom s
  | .arr xs => harr xs fun x _hx =>
      Json.inductionOn P hatom harr hobj x
  | .obj kvs => hobj kvs fun p _hp =>
      Json.inductionOn P hatom harr hobj p.2
termination_by j => sizeOf j
decreasing_by
  · exact sizeOf_lt_of_mem_elems _hx
  · exact sizeOf_lt_of_mem_fields _hp

/-! ## Reflexivity of Python equality on well-formed values -/

theorem jeqL_refl (xs : List Json)
    (ih : ∀ x ∈ xs, wfJ x = true → jeq x x = true)
    (hwf : wfL xs = true) : jeqL xs xs = true := by
  induction xs with
  | nil => rfl
  | cons y ys ihl =>
    simp only [wfL, Bool.and_eq_true] at hwf
    simp only [jeqL, Bool.and_eq_true]
    exact ⟨ih y (List.mem_cons_self y ys) hwf.1,
      ihl (fun x hx => ih x (List.mem_cons_of_mem y hx)) hwf.2⟩

theorem jeqP_refl_aux (kvs : List (String × Json))
    (hnd : nodupKeys kvs = true) (hwf : wfP kvs = true)
    (ih : ∀ p ∈ kvs, wfJ p.2 = true → jeq p.2 p.2 = true) :
    ∀ ps : List (String × Json), (∀ p ∈ ps, p ∈ kvs) →
    jeqP ps kvs = true := by
  intro ps
  induction ps with
  | nil => intro _; rfl
  | cons q qs ihp =>
    obtain ⟨k, v⟩ := q
    intro hsub
    have hm : (k, v) ∈ kvs := hsub (k, v) (List.mem_cons_self _ _)
    simp only [jeqP, Bool.and_eq_true]
    constructor
    · rw [lookupJ_of_mem k v kvs hnd hm]
      exact ih (k, v) hm (wfP_mem kvs hwf (k, v) hm)
    · exact ihp fun p hp => hsub p (List.mem_cons_of_mem _ hp)

/-! ## Claims about Config Identity: conflict and redundant calls -/

/-- C3: when a configuration `c` is already persisted in the directory
that a different configuration `c'` resolves to, `hash_sim_dir` raises
the config-mismatch `ValueError` (Identity Conflict) and performs no
mutation: the returned filesystem is exactly the input one — nothing is
overwritten or merged.  Stated for every hash function, so it covers the
collision case as well as any tampered directory. -/
theorem hash_sim_dir_conflict (hash : String → String) (baseDir : String)
    (c c' : Json) (fs : FsState)
    (hp : lookupFs fs (simDirPath hash baseDir c') = some c)
    (hne : jeq c c' = false) :
    hashSimDir hash baseDir c' fs
      = (fs, Except.error ("config mismatch with "
          ++ simDirPath hash baseDir c' ++ "/config.toml")) := by
  simp only [hashSimDir]
  rw [hp]
  simp [hne]

/-- Witness for C3: a directory persisting `1` rejects a job whose
configuration is `2` under a hash mapping everything to the same
directory, leaving the filesystem unchanged. -/
theorem hash_sim_dir_conflict_witness :
    lookupFs ⟨[("base/h", Json.atom "1")]⟩
        (simDirPath (fun _ => "h") "base" (Json.atom "2"))
      = some (Json.atom "1") ∧
    jeq (Json.atom "1") (Json.atom "2") = false ∧
    hashSimDir (fun _ => "h") "base" (Json.atom "2")
        ⟨[("base/h", Json.atom "1")]⟩
      = (⟨[("base/h", Json.atom "1")]⟩,
         Except.error ("config mismatch with "
           ++ simDirPath (fun _ => "h") "base" (Json.atom "2")
           ++ "/config.toml")) :=
  ⟨rfl, rfl,
    hash_sim_dir_conflict (fun _ => "h") "base" (Json.atom "1")
      (Json.atom "2") ⟨[("base/h", Json.atom "1")]⟩ rfl rfl⟩

theorem jeq_refl (j : Json) (h : wfJ j = true) : jeq j j = true := by
  induction j using Json.inductionOn with
  | hatom s => simp [jeq]
  | harr xs ih =>
    simp only [wfJ] at h
    simpa only [jeq] using jeqL_refl xs ih h
  | hobj kvs ih =>
    simp only [wfJ, Bool.and_eq_true] at h
    simp only [jeq, Bool.and_eq_true]
    exact ⟨by simp,
      jeqP_refl_aux kvs h.1 h.2 ih kvs (fun p hp => hp)⟩

/-- C9: `hash_sim_dir` is safe to call redundantly: a first call on a
fresh directory succeeds and persists the configuration; a second call
with the same base directory and configuration succeeds (no
config-mismatch error), returns the same directory, and leaves the
filesystem exactly as the first call left it — in particular the
persisted form read back compares equal (here: is equal) to the original
input. -/
theorem hash_sim_dir_redundant (hash : String → String) (baseDir : String)
    (c : Json) (fs : FsState) (hwf : wfJ c = true)
    (hnew : lookupFs fs (simDirPath hash baseDir c) = none) :
    (hashSimDir hash baseDir c fs).2
      = Except.ok (simDirPath hash baseDir c) ∧
    lookupFs (hashSimDir hash baseDir c fs).1 (simDirPath hash baseDir c)
      = some c ∧
    hashSimDir hash baseDir c (hashSimDir hash baseDir c fs).1
      = ((hashSimDir hash baseDir c fs).1,
         Except.ok (simDirPath hash baseDir c)) := by
  have h1 : hashSimDir hash baseDir c fs
      = (⟨(simDirPath hash baseDir c, c) :: fs.persisted⟩,
         Except.ok (simDirPath hash baseDir c)) := by
    simp only [hashSimDir]
    rw [hnew]
  have h2 : lookupFs ⟨(simDirPath hash baseDir c, c) :: fs.persisted⟩
      (simDirPath hash baseDir c) = some c := by
    simp [lookupFs, lookupJ]
  refine ⟨by rw [h1], by rw [h1]; exact h2, ?_⟩
  rw [h1]
  simp only [hashSimDir]
  rw [h2]
  simp [jeq_refl c hwf]

/-- Witness for C9: a fresh base directory, a one-field configuration:
the first call persists it, the second call succeeds on the same
directory without rewriting. -/
theorem hash_sim_dir_redundant_witness :
    wfJ (Json.obj [("a", Json.atom "1")]) = true ∧
    lookupFs ⟨[]⟩
        (simDirPath (fun _ => "h") "base" (Json.obj [("a", Json.atom "1")]))
      = none ∧
    ((hashSimDir (fun _ => "h") "base" (Json.obj [("a", Json.atom "1")])
        ⟨[]⟩).2
      = Except.ok (simDirPath (fun _ => "h") "base"
          (Json.obj [("a", Json.atom "1")])) ∧
    lookupFs (hashSimDir (fun _ => "h") "base"
        (Json.obj [("a", Json.atom "1")]) ⟨[]⟩).1
        (simDirPath (fun _ => "h") "base" (Json.obj [("a", Json.atom "1")]))
      = some (Json.obj [("a", Json.atom "1")]) ∧
    hashSimDir (fun _ => "h") "base" (Json.obj [("a", Json.atom "1")])
        (hashSimDir (fun _ => "h") "base" (Json.obj [("a", Json.atom "1")])
          ⟨[]⟩).1
      = ((hashSimDir (fun _ => "h") "base" (Json.obj [("a", Json.atom "1")])
          ⟨[]⟩).1,
         Except.ok (simDirPath (fun _ => "h") "base"
           (Json.obj [("a", Json.atom "1")])))) :=
  ⟨rfl, rfl,
    hash_sim_dir_redundant (fun _ => "h") "base"
      (Json.obj [("a", Json.atom "1")]) ⟨[]⟩ rfl rfl⟩

/-! ## Canonicalization is determined by structural content -/

theorem canonP_eq_map (ps : List (String × Json)) :
    canonP ps = ps.map fun p => (p.1, canon p.2) := by
  induction ps with
  | nil => rfl
  | cons p ps ih =>
    obtain ⟨k, v⟩ := p
    simp only [canonP, List.map_cons, ih]

theorem canonL_eq_map (xs : List Json) : canonL xs = xs.map canon := by
  induction xs with
  | nil => rfl
  | cons x xs ih => simp only [canonL, List.map_cons, ih]

theorem keysOf_canonP (ps : List (String × Json)) :
    keysOf (canonP ps) = keysOf ps := by
  rw [canonP_eq_map]
  simp [keysOf, List.map_map, Function.comp]

theorem sorted_keyLt_of_sorted_nodup (l : List (String × Json))
    (hs : l.Sorted keyLe) (hnd : (keysOf l).Nodup) : l.Sorted keyLt := by
  have hne : l.Pairwise fun p q => p.1 ≠ q.1 := List.pairwise_map.mp hnd
  exact hs.and hne

theorem sorted_keyLe_unique (l₁ l₂ : List (String × Json))
    (hperm : l₁.Perm l₂) (hnd : (keysOf l₁).Nodup)
    (hs₁ : l₁.Sorted keyLe) (hs₂ : l₂.Sorted keyLe) : l₁ = l₂ := by
  have hnd₂ : (keysOf l₂).Nodup := ((hperm.map Prod.fst).nodup_iff).mp hnd
  exact List.eq_of_perm_of_sorted hperm
    (sorted_keyLt_of_sorted_nodup l₁ hs₁ hnd)
    (sorted_keyLt_of_sorted_nodup l₂ hs₂ hnd₂)

theorem mem_keys_of_subset_len (ks₁ ks₂ : List String)
    (h1 : ks₁.Nodup) (h2 : ks₂.Nodup) (hlen : ks₁.length = ks₂.length)
    (hsub : ks₁ ⊆ ks₂) : ∀ k ∈ ks₂, k ∈ ks₁ := by
  intro k hk
  have hs : ks₁.toFinset ⊆ ks₂.toFinset := fun a ha =>
    List.mem_toFinset.mpr (hsub (List.mem_toFinset.mp ha))
  have hc : ks₂.toFinset.card ≤ ks₁.toFinset.card := by
    rw [List.toFinset_card_of_nodup h1, List.toFinset_card_of_nodup h2]
    omega
  have he : ks₁.toFinset = ks₂.toFinset :=
    Finset.eq_of_subset_of_card_le hs hc
  exact List.mem_toFinset.mp (he ▸ List.mem_toFinset.mpr hk)

theorem canonL_eq_of : ∀ xs ys : List Json,
    (∀ x ∈ xs, ∀ y, wfJ x = true → wfJ y = true → jeq x y = true →
      canon x = canon y) →
    wfL xs = true → wfL ys = true → jeqL xs ys = true →
    canonL xs = canonL ys := by
  intro xs
  induction xs with
  | nil =>
    intro ys _ _ _ heq
    cases ys with
    | nil => rfl
    | cons y ys => simp [jeqL] at heq
  | cons x xs ih =>
    intro ys hih hwx hwy heq
    cases ys with
    | nil => simp [jeqL] at heq
    | cons y ys =>
      simp only [jeqL, Bool.and_eq_true] at heq
      simp only [wfL, Bool.and_eq_true] at hwx hwy
      simp only [canonL]
      rw [hih x (List.mem_cons_self x xs) y hwx.1 hwy.1 heq.1,
        ih ys (fun x' hx' => hih x' (List.mem_cons_of_mem x hx'))
          hwx.2 hwy.2 heq.2]

theorem canonP_mem_iff (xs ys : List (String × Json))
    (hndx : nodupKeys xs = true) (hndy : nodupKeys ys = true)
    (hwx : wfP xs = true) (hwy : wfP ys = true)
    (hjeq : jeqP xs ys = true) (hlen : xs.length = ys.length)
    (ih : ∀ p ∈ xs, ∀ w, wfJ p.2 = true → wfJ w = true →
      jeq p.2 w = true → canon p.2 = canon w) :
    ∀ pr, pr ∈ canonP xs ↔ pr ∈ canonP ys := by
  intro pr
  rw [canonP_eq_map, canonP_eq_map]
  constructor
  · intro hpr
    rcases List.mem_map.mp hpr with ⟨p, hp, rfl⟩
    rcases jeqP_forall ys xs hjeq p hp with ⟨w, hw, hjw⟩
    have hmw : (p.1, w) ∈ ys := lookupJ_mem p.1 w ys hw
    have hcv : canon p.2 = canon w :=
      ih p hp w (wfP_mem xs hwx p hp) (wfP_mem ys hwy (p.1, w) hmw) hjw
    exact List.mem_map.mpr ⟨(p.1, w), hmw, by rw [← hcv]⟩
  · intro hpr
    rcases List.mem_map.mp hpr with ⟨q, hq, rfl⟩
    obtain ⟨k, w0⟩ := q
    have hkys : k ∈ keysOf ys := List.mem_map.mpr ⟨(k, w0), hq, rfl⟩
    have hkxs : k ∈ keysOf xs :=
      mem_keys_of_subset_len (keysOf xs) (keysOf ys)
        ((nodupKeys_iff xs).mp hndx) ((nodupKeys_iff ys).mp hndy)
        (by simp [keysOf, hlen]) (keys_subset_of_jeqP xs ys hjeq) k hkys
    rcases lookupJ_isSome_of_mem_keys k xs hkxs with ⟨v, hv⟩
    have hmv : (k, v) ∈ xs := lookupJ_mem k v xs hv
    rcases jeqP_forall ys xs hjeq (k, v) hmv with ⟨w1, hw1, hjw1⟩
    have hw0 : lookupJ k ys = some w0 := lookupJ_of_mem k w0 ys hndy hq
    have hww : w1 = w0 := by
      rw [hw0] at hw1
      exact (Option.some.inj hw1).symm
    subst hww
    have hcv : canon v = canon w1 :=
      ih (k, v) hmv w1 (wfP_mem xs hwx (k, v) hmv)
        (wfP_mem ys hwy (k, w1) hq) hjw1
    exact List.mem_map.mpr ⟨(k, v), hmv, by simp [hcv]⟩

/-- Python-equal well-formed configuration values have identical
canonical forms: `json.dumps(-, sort_keys=True)` depends only on the
structural content, not on key insertion order. -/
theorem canon_eq_of_jeq (a : Json) : ∀ b, wfJ a = true → wfJ b = true →
    jeq a b = true → canon a = canon b := by
  induction a using Json.inductionOn with
  | hatom s =>
    intro b _ _ heq
    cases b with
    | atom t =>
      simp only [jeq] at heq
      exact congrArg Json.atom (eq_of_beq heq)
    | arr ys => simp [jeq] at heq
    | obj ys => simp [jeq] at heq
  | harr xs ih =>
    intro b hwa hwb heq
    cases b with
    | atom t => simp [jeq] at heq
    | obj ys => simp [jeq] at heq
    | arr ys =>
      simp only [jeq] at heq
      simp only [wfJ] at hwa hwb
      simp only [canon]
      exact congrArg Json.arr (canonL_eq_of xs ys ih hwa hwb heq)
  | hobj xs ih =>
    intro b hwa hwb heq
    cases b with
    | atom t => simp [jeq] at heq
    | arr ys => simp [jeq] at heq
    | obj ys =>
      simp only [jeq, Bool.and_eq_true] at heq
      simp only [wfJ, Bool.and_eq_true] at hwa hwb
      have hlen : xs.length = ys.length := eq_of_beq heq.1
      have hndA : (keysOf (canonP xs)).Nodup := by
        rw [keysOf_canonP]
        exact (nodupKeys_iff xs).mp hwa.1
      have hndB : (keysOf (canonP ys)).Nodup := by
        rw [keysOf_canonP]
        exact (nodupKeys_iff ys).mp hwb.1
      have hA : (canonP xs).Nodup := List.Nodup.of_map Prod.fst hndA
      have hB : (canonP ys).Nodup := List.Nodup.of_map Prod.fst hndB
      have hAB : (canonP xs).Perm (canonP ys) :=
        (List.perm_ext_iff_of_nodup hA hB).mpr
          (canonP_mem_iff xs ys hwa.1 hwb.1 hwa.2 hwb.2 heq.2 hlen ih)
      simp only [canon]
      refine congrArg Json.obj ?_
      refine sorted_keyLe_unique _ _
        ((List.perm_insertionSort keyLe (canonP xs)).trans
          (hAB.trans (List.perm_insertionSort keyLe (canonP ys)).symm))
        ?_ (List.sorted_insertionSort keyLe (canonP xs))
        (List.sorted_insertionSort keyLe (canonP ys))
      exact (((List.perm_insertionSort keyLe (canonP xs)).map
        Prod.fst).nodup_iff).mpr hndA

/-- C2: the canonical serialization, and hence the hash-derived job
directory, of a well-formed configuration depends only on its structural
content: two Python-equal configurations (same keys and values in any key
order) resolve to the same directory, for every base directory and every
hash function — the path is a pure function of the content, independent
of construction order, process state, time, or locale. -/
theorem hash_sim_dir_deterministic (hash : String → String)
    (baseDir : String) (c1 c2 : Json) (h1 : wfJ c1 = true)
    (h2 : wfJ c2 = true) (heq : jeq c1 c2 = true) :
    simDirPath hash baseDir c1 = simDirPath hash baseDir c2 := by
  unfold simDirPath dumps
  rw [canon_eq_of_jeq c1 c2 h1 h2 heq]

/-- Witness for C2: the same two-field configuration built in two
different key orders resolves to the same directory. -/
theorem hash_sim_dir_deterministic_witness :
    wfJ (Json.obj [("a", Json.atom "1"), ("b", Json.atom "2")]) = true ∧
    wfJ (Json.obj [("b", Json.atom "2"), ("a", Json.atom "1")]) = true ∧
    jeq (Json.obj [("a", Json.atom "1"), ("b", Json.atom "2")])
      (Json.obj [("b", Json.atom "2"), ("a", Json.atom "1")]) = true ∧
    simDirPath (fun s => s) "sims"
        (Json.obj [("a", Json.atom "1"), ("b", Json.atom "2")])
      = simDirPath (fun s => s) "sims"
          (Json.obj [("b", Json.atom "2"), ("a", Json.atom "1")]) :=
  ⟨by decide, by decide, by decide,
    hash_sim_dir_deterministic (fun s => s) "sims"
      (Json.obj [("a", Json.atom "1"), ("b", Json.atom "2")])
      (Json.obj [("b", Json.atom "2"), ("a", Json.atom "1")])
      (by decide) (by decide) (by decide)⟩

end Mutare
